import Mathlib

/-!
# Verification of the `rkubctl` name-resolution and disambiguation engine

Shallow embedding of `src/manager.rs`.  Strings are modelled as `List Char`;
the Rust regex `(.*?)(\d*)$` is modelled operationally (leftmost, lazy first
group, end-anchored second group); the `str_distance` Jaccard distance on
1-grams is modelled over `ℚ`; the stable sort `itertools::sorted_by` is
modelled as an insertion sort over index-annotated elements ordered
lexicographically by (distance, original index), which is the canonical
mathematical description of a stable sort by distance.  Rust panics
(out-of-bounds indexing, `unwrap` failures) are modelled explicitly with a
`panicked` outcome, and `process::exit` calls with dedicated outcomes.
-/

namespace Rkubctl

/-- `static MAX_CANDIDATE_SIZE: usize = 25;` from `manager.rs`. -/
def MAX_CANDIDATE_SIZE : Nat := 25

/-- `static DEFAULT_CANDIDATE_SIZE: usize = 5;` from `manager.rs`. -/
def DEFAULT_CANDIDATE_SIZE : Nat := 5

/-- The fixed `kubectl` invocation prefix (`static KUB_CTL` in `manager.rs`).
Its exact contents are irrelevant to every claim; only its role as an opaque
prefix of each built command matters. -/
def KUB_CTL : List Char := "kubectl".data

/-- The `PodInfo` struct from `manager.rs`: nine whitespace-separated fields
of `kubectl get po -owide` output.  Only `name` is ever used for matching. -/
structure PodInfo where
  name : List Char
  ready : List Char
  status : List Char
  restarts : List Char
  age : List Char
  ip : List Char
  node : List Char
  nominated_node : List Char
  readiness_gates : List Char
deriving DecidableEq, Repr

instance : Inhabited PodInfo := ⟨⟨[], [], [], [], [], [], [], [], []⟩⟩

/-- Helper for constructing test pods: the eight display-only fields are
opaque strings never consulted by the resolution logic. -/
def mkPod (name : List Char) : PodInfo :=
  ⟨name, "1/1".data, "Running".data, "0".data, "1d".data,
   "10.0.0.1".data, "node".data, "none".data, "none".data⟩

/-- The `Command` enum from `args.rs` (as matched in `manager.rs`): one
cluster action together with the user-typed pod-name fragment. -/
inductive Command where
  | DELETE (name : List Char)
  | DESCRIBE (name : List Char)
  | IMAGE (name : List Char)
  | CONTAINER (name : List Char)
  | LOG (name : List Char)
  | EXEC (name : List Char)
deriving DecidableEq, Repr

/-- The `get_pod_name` closure inside `Manager::get_kub_command`. -/
def get_pod_name (command : Command) : List Char :=
  match command with
  | Command.DELETE name => name
  | Command.DESCRIBE name => name
  | Command.IMAGE name => name
  | Command.CONTAINER name => name
  | Command.LOG name => name
  | Command.EXEC name => name

/-- Rust `str::contains` (substring search, case-sensitive): `needle` occurs
as a contiguous substring of `hay`. -/
def strContains (hay needle : List Char) : Bool :=
  needle.isPrefixOf hay ||
    match hay with
    | [] => false
    | _ :: t => strContains t needle

/-- Operational model of the captures of the Rust regex `(.*?)(\d*)$` at
its match position: the lazy first group takes the least prefix of the
remaining haystack such that the end-anchored `\d*` covers the rest, so the
second capture is the maximal trailing digit run and the first capture is
everything before it.  The `\d` class of the regex crate is Unicode `Nd`; it
is modelled by `Char.isDigit`, with which it agrees exactly on ASCII
characters (`Nd` beyond ASCII is not modelled), so the theorems below that
interpret digit runs are stated for ASCII strings only. -/
def splitAtTrailingDigits : List Char → List Char × List Char
  | [] => ([], [])
  | c :: rest =>
    if (c :: rest).all Char.isDigit then ([], c :: rest)
    else (c :: (splitAtTrailingDigits rest).1, (splitAtTrailingDigits rest).2)

/-- The suffix of a string strictly after its last newline (the whole string
when it has none).  In the regex crate `.` matches any character except
`'\n'` while `\d` never matches `'\n'`, and `$` anchors at the end of the
haystack, so the leftmost match of `(.*?)(\d*)$` begins exactly here:
no match can start at or before the last newline. -/
def afterLastNewline (s : List Char) : List Char :=
  (s.reverse.takeWhile fun c => c != '\n').reverse

/-- A string of ASCII characters only: the domain on which the
`Char.isDigit` model of the `\d` (Unicode `Nd`) class is exact. -/
def isAscii (s : List Char) : Bool :=
  s.all fun c => c.toNat < 128

/-- `fn filled_with_middle_name(pod_name, middle_name)` from `manager.rs`:
capture `(.*?)(\d*)$` against `pod_name` and return
`caps[1] ++ middle_name ++ caps[2]`.  Because `.` does not match a newline
and `$` anchors at the end of the haystack, the leftmost match starts right
after the last newline of `pod_name`, so everything up to and including that
newline is silently discarded.  The regex matches every string (the empty
match at the end always exists), so the `is_match` guard is always true. -/
def filled_with_middle_name (pod_name middle_name : List Char) : List Char :=
  (splitAtTrailingDigits (afterLastNewline pod_name)).1 ++ middle_name ++
    (splitAtTrailingDigits (afterLastNewline pod_name)).2

/-- The fragment rewriting performed at the top of `Manager::get_kub_command`:
apply `filled_with_middle_name` exactly when the `middle` option is set. -/
def normalizeFragment (middle : Option (List Char)) (fragment : List Char) : List Char :=
  match middle with
  | some middle_name => filled_with_middle_name fragment middle_name
  | none => fragment

/-- Spec-side notion: the maximal trailing run of decimal digits of a string. -/
def trailingDigitRun (s : List Char) : List Char :=
  (s.reverse.takeWhile Char.isDigit).reverse

/-- Spec-side notion: what remains of a string before its maximal trailing
run of decimal digits. -/
def trailingDigitStem (s : List Char) : List Char :=
  (s.reverse.dropWhile Char.isDigit).reverse

/-- `fn get_candidate_option(candidate_size)` from `manager.rs`: the first
`min(MAX_CANDIDATE_SIZE, candidate_size)` letters of `a..=z`. -/
def get_candidate_option (candidate_size : Nat) : List Char :=
  (((List.range 26).map fun i => Char.ofNat ('a'.toNat + i)).take
    (min MAX_CANDIDATE_SIZE candidate_size))

/-- Rust `str::parse::<usize>()`: an optional leading `+`, then one or more
decimal digits, rejecting anything else and values exceeding `usize::MAX`
(64-bit). -/
def parse_usize (s : List Char) : Option Nat :=
  let digits := match s with
    | '+' :: rest => rest
    | _ => s
  if digits.isEmpty || !digits.all Char.isDigit then none
  else
    let n := digits.foldl (fun acc c => acc * 10 + (c.toNat - '0'.toNat)) 0
    if n < 2 ^ 64 then some n else none

/-- `fn get_candidate_size()` from `manager.rs`, with the environment value
of `RKL_CANDIDATE_SIZE` made explicit (`none` = variable absent).  The Rust
code matches on the nested `Result` of `env::var(..).map(|s| s.parse())`. -/
def get_candidate_size (env : Option (List Char)) : Nat :=
  match env.map parse_usize with
  | some (some n) => if n < 1 then DEFAULT_CANDIDATE_SIZE else min n MAX_CANDIDATE_SIZE
  | _ => DEFAULT_CANDIDATE_SIZE

/-- Spec-side model of window-size resolution, following the wording of the spec:
"integer; if absent, unparsable, or < 1, falls back to default window size 5;
otherwise clamped to at most 25". -/
def candidate_size_spec (env : Option (List Char)) : Nat :=
  match env with
  | none => 5
  | some s =>
    match parse_usize s with
    | none => 5
    | some n => if n < 1 then 5 else min n 25

/-- The `str_distance` Jaccard distance with 1-grams, as used in
`Manager::get_candidate_pod`: `1 - |A ∩ B| / |A ∪ B|` where `A`, `B` are the
character sets of the two strings, modelled over `ℚ`.  It is written as the
single fraction `(|A ∪ B| - |A ∩ B|) / |A ∪ B|`, which is kernel-computable
and provably equal to `1 - |A ∩ B| / |A ∪ B|` whenever the union is nonempty
(`jaccardDist_eq_one_sub_div` below); for two empty strings the Rust
implementation produces `NaN` — and the `unwrap` in the sorting comparator would
panic — a case that cannot arise when the fragment is nonempty, and with an
empty fragment the exact pass already matches every pod. -/
def jaccardDist (a b : List Char) : ℚ :=
  mkRat (((a.toFinset ∪ b.toFinset).card : Int) - ((a.toFinset ∩ b.toFinset).card : Int))
    (a.toFinset ∪ b.toFinset).card

/-- The ordering used to model `itertools::sorted_by` with the Jaccard
comparator in `Manager::get_candidate_pod`.  The Rust `sort_by` is stable, and
a stable sort keyed by distance is exactly a sort of the index-annotated list
by the lexicographic order (distance, original index). -/
def fuzzyRel (fragment : List Char) (a b : Nat × PodInfo) : Prop :=
  jaccardDist a.2.name fragment < jaccardDist b.2.name fragment ∨
    (jaccardDist a.2.name fragment = jaccardDist b.2.name fragment ∧ a.1 ≤ b.1)

instance (fragment : List Char) : DecidableRel (fuzzyRel fragment) := fun a b => by
  unfold fuzzyRel
  infer_instance

instance (fragment : List Char) : IsTotal (Nat × PodInfo) (fuzzyRel fragment) := by
  constructor
  intro a b
  unfold fuzzyRel
  rcases lt_trichotomy (jaccardDist a.2.name fragment) (jaccardDist b.2.name fragment) with h | h | h
  · exact Or.inl (Or.inl h)
  · rcases Nat.le_total a.1 b.1 with h' | h'
    · exact Or.inl (Or.inr ⟨h, h'⟩)
    · exact Or.inr (Or.inr ⟨h.symm, h'⟩)
  · exact Or.inr (Or.inl h)

instance (fragment : List Char) : IsTrans (Nat × PodInfo) (fuzzyRel fragment) := by
  constructor
  intro a b c hab hbc
  unfold fuzzyRel at *
  rcases hab with hab | ⟨hab, hab'⟩
  · rcases hbc with hbc | ⟨hbc, _⟩
    · exact Or.inl (hab.trans hbc)
    · exact Or.inl (hbc ▸ hab)
  · rcases hbc with hbc | ⟨hbc, hbc'⟩
    · exact Or.inl (hab ▸ hbc)
    · exact Or.inr ⟨hab.trans hbc, hab'.trans hbc'⟩

/-- `Manager::get_candidate_pod(pod_name_slice, fuzzy_match)` from
`manager.rs`, with the pod list (the result of `self.list_pods()`) passed
explicitly.  The exact pass filters by substring; the fuzzy pass stable-sorts
all pods by Jaccard distance to the fragment and takes `MAX_CANDIDATE_SIZE`. -/
def get_candidate_pod (all_pods : List PodInfo) (pod_name_slice : List Char)
    (fuzzy_match : Bool) : List PodInfo :=
  if !fuzzy_match then
    all_pods.filter fun pod_info => strContains pod_info.name pod_name_slice
  else
    (((all_pods.enum.insertionSort (fuzzyRel pod_name_slice)).map Prod.snd).take
      MAX_CANDIDATE_SIZE)

/-- `fn get_kub_command(command, pod_name)` from `manager.rs`: the literal
command string built for one resolved pod. -/
def get_kub_command (command : Command) (pod_name : List Char) : List Char :=
  match command with
  | Command.DELETE _ => KUB_CTL ++ " delete po ".data ++ pod_name
  | Command.DESCRIBE _ => KUB_CTL ++ " describe po ".data ++ pod_name
  | Command.LOG _ => KUB_CTL ++ " logs ".data ++ pod_name
  | Command.IMAGE _ => KUB_CTL ++ " describe po ".data ++ pod_name ++ " | grep Image".data
  | Command.CONTAINER _ => KUB_CTL ++ " describe po ".data ++ pod_name ++ " | grep container".data
  | Command.EXEC _ => KUB_CTL ++ " exec -it ".data ++ pod_name

/-- Outcome of `handle_multiple_results`: `invalidExit` models
`process::exit(1)` on invalid input, `panicked` models a Rust panic
(out-of-bounds index or failed `unwrap`), `cmds` the returned command list. -/
inductive PromptOutcome where
  | invalidExit
  | panicked
  | cmds (kub_cmds : List (List Char))
deriving DecidableEq, Repr

/-- The menu lines printed by the display loop of `handle_multiple_results`:
`choices.chars().zip(candidate_pods.iter())`. -/
def displayedCandidates (candidate_pods : List PodInfo) (candidate_size : Nat) :
    List (Char × PodInfo) :=
  (get_candidate_option candidate_size).zip candidate_pods

/-- `fn handle_multiple_results(cmd, candidate_pods)` from `manager.rs`,
with the window size (the result of `get_candidate_size()`) and the operator
input line — already trimmed and lowercased, as the Rust code does before
validation — passed explicitly.  The validity test keeps the Rust grouping
(`&&` binds tighter than `||`):
`len != 1 || (!choices.contains(input) && input != "z")`.
On 'z' the Rust loop `for i in 0..candidate_size` indexes
`candidate_pods[i]`, which panics when `i` is out of bounds; this is modelled
with `List.get?` under the `Option` monad.  On a letter, `position` always
succeeds (the letter passed the `contains` test) and `candidate_pods[index]`
again panics when out of bounds. -/
def handle_multiple_results (cmd : Command) (candidate_pods : List PodInfo)
    (candidate_size : Nat) (input_choice : List Char) : PromptOutcome :=
  let choices := get_candidate_option candidate_size
  if input_choice.length ≠ 1 ∨
      (¬ strContains choices input_choice ∧ input_choice ≠ ['z']) then
    PromptOutcome.invalidExit
  else
    match input_choice with
    | [] => PromptOutcome.panicked
    | input_char :: _ =>
      if input_char = 'z' then
        match (List.range candidate_size).mapM
            (fun candidate_idx =>
              (candidate_pods.get? candidate_idx).map fun p => get_kub_command cmd p.name) with
        | some kub_cmds => PromptOutcome.cmds kub_cmds
        | none => PromptOutcome.panicked
      else
        match choices.findIdx? (fun c => c = input_char) with
        | some choice_index =>
          match candidate_pods.get? choice_index with
          | some p => PromptOutcome.cmds [get_kub_command cmd p.name]
          | none => PromptOutcome.panicked
        | none => PromptOutcome.panicked

/-- Number of commands returned by a prompt outcome (`none` when the prompt
did not return normally). -/
def promptCmdCount : PromptOutcome → Option Nat
  | PromptOutcome.cmds l => some l.length
  | _ => none

/-- Outcome of `Manager::get_kub_command`: additionally `exitNoMatch` models
the `process::exit(0)` taken when both resolution passes are empty. -/
inductive RunOutcome where
  | exitNoMatch
  | invalidExit
  | panicked
  | cmds (kub_cmds : List (List Char))
deriving DecidableEq, Repr

/-- Inclusion of prompt outcomes into run outcomes. -/
def liftPrompt : PromptOutcome → RunOutcome
  | PromptOutcome.invalidExit => RunOutcome.invalidExit
  | PromptOutcome.panicked => RunOutcome.panicked
  | PromptOutcome.cmds l => RunOutcome.cmds l

/-- `Manager::get_kub_command(command)` from `manager.rs`.  `lister n` is the
pod list returned by the n-th call to `self.list_pods()` (each
`get_candidate_pod` call performs its own listing query); the second
component of the result counts those calls.  `middle`, `candidate_size` and
the operator input line are the per-run configuration and interaction made
explicit. -/
def Manager.get_kub_command (lister : Nat → List PodInfo) (middle : Option (List Char))
    (candidate_size : Nat) (input : List Char) (command : Command) :
    RunOutcome × Nat :=
  let pod_name_slice := normalizeFragment middle (get_pod_name command)
  let candidate_pods := get_candidate_pod (lister 0) pod_name_slice false
  if candidate_pods.length = 0 then
    let candidate_pods_fuzzy := get_candidate_pod (lister 1) pod_name_slice true
    if candidate_pods_fuzzy.length = 0 then
      (RunOutcome.exitNoMatch, 2)
    else
      (liftPrompt (handle_multiple_results command candidate_pods_fuzzy candidate_size input), 2)
  else if candidate_pods.length > 1 then
    (liftPrompt (handle_multiple_results command candidate_pods candidate_size input), 1)
  else
    (RunOutcome.cmds [Rkubctl.get_kub_command command candidate_pods.headI.name], 1)

/-! ## Helper lemmas -/

/-- The defining formula of the Rust Jaccard distance: whenever the two
strings are not both empty, `jaccardDist a b = 1 - |A ∩ B| / |A ∪ B|`. -/
theorem jaccardDist_eq_one_sub_div (a b : List Char)
    (h : (a.toFinset ∪ b.toFinset).card ≠ 0) :
    jaccardDist a b =
      1 - ((a.toFinset ∩ b.toFinset).card : ℚ) / ((a.toFinset ∪ b.toFinset).card : ℚ) := by
  unfold jaccardDist
  rw [Rat.mkRat_eq_div]
  push_cast
  have h' : ((a.toFinset ∪ b.toFinset).card : ℚ) ≠ 0 := by exact_mod_cast h
  field_simp

theorem strContains_iff (hay needle : List Char) :
    strContains hay needle = true ↔ needle <:+: hay := by
  induction hay with
  | nil =>
    simp only [strContains, Bool.or_eq_true, List.isPrefixOf_iff_prefix]
    constructor
    · rintro (h | h)
      · exact h.isInfix
      · cases h
    · intro h
      have hn : needle = [] := List.eq_nil_of_infix_nil h
      subst hn
      exact Or.inl List.nil_prefix
  | cons c t ih =>
    simp only [strContains, Bool.or_eq_true, List.isPrefixOf_iff_prefix, ih]
    constructor
    · rintro (h | h)
      · exact h.isInfix
      · exact h.trans (List.suffix_cons c t).isInfix
    · intro h
      rcases h with ⟨s, u, hsu⟩
      match s, hsu with
      | [], hsu => exact Or.inl ⟨u, by simpa using hsu⟩
      | x :: s', hsu =>
        right
        exact ⟨s', u, by simpa using congrArg List.tail hsu⟩

theorem strContains_singleton (l : List Char) (c : Char) :
    strContains l [c] = true ↔ c ∈ l := by
  rw [strContains_iff]
  constructor
  · intro h
    exact h.subset (by simp)
  · intro h
    rcases List.append_of_mem h with ⟨s, u, rfl⟩
    exact ⟨s, u, by simp⟩

theorem splitAtTrailingDigits_append (s : List Char) :
    (splitAtTrailingDigits s).1 ++ (splitAtTrailingDigits s).2 = s := by
  induction s with
  | nil => rfl
  | cons c t ih =>
    unfold splitAtTrailingDigits
    by_cases h : (c :: t).all Char.isDigit
    · simp [h]
    · simpa [h] using congrArg (c :: ·) ih

theorem splitAtTrailingDigits_all_digits (s : List Char) :
    (splitAtTrailingDigits s).2.all Char.isDigit = true := by
  induction s with
  | nil => rfl
  | cons c t ih =>
    unfold splitAtTrailingDigits
    by_cases h : (c :: t).all Char.isDigit
    · simp [h]
    · simpa [h] using ih

theorem splitAtTrailingDigits_getLast (s : List Char) :
    ∀ c ∈ (splitAtTrailingDigits s).1.getLast?, c.isDigit = false := by
  induction s with
  | nil => intro c h; cases h
  | cons c t ih =>
    unfold splitAtTrailingDigits
    by_cases h : (c :: t).all Char.isDigit
    · intro x hx
      simp [h] at hx
    · rcases hp : (splitAtTrailingDigits t).1 with _ | ⟨y, p'⟩
      · intro x hx
        simp only [if_neg h, hp] at hx
        simp only [List.getLast?_singleton, Option.mem_def, Option.some.injEq] at hx
        subst hx
        have hd := splitAtTrailingDigits_all_digits t
        have hs := splitAtTrailingDigits_append t
        rw [hp] at hs
        simp only [List.nil_append] at hs
        by_contra hcd
        apply h
        simp only [List.all_cons, Bool.and_eq_true]
        refine ⟨by simpa using hcd, ?_⟩
        rw [← hs]
        exact hd
      · intro x hx
        simp only [if_neg h, hp] at hx
        exact ih x (by rw [hp]; exact hx)

theorem takeWhile_eq_nil_of_head (p : Char → Bool) (l : List Char)
    (h : ∀ c ∈ l.head?, p c = false) : l.takeWhile p = [] := by
  cases l with
  | nil => rfl
  | cons c t =>
    have hc : p c = false := h c rfl
    exact List.takeWhile_cons_of_neg (by simp [hc])

theorem dropWhile_eq_self_of_head (p : Char → Bool) (l : List Char)
    (h : ∀ c ∈ l.head?, p c = false) : l.dropWhile p = l := by
  cases l with
  | nil => rfl
  | cons c t =>
    have hc : p c = false := h c rfl
    exact List.dropWhile_cons_of_neg (by simp [hc])

/-- Any decomposition of `s` into a part not ending in a digit followed by an
all-digit part identifies the maximal trailing digit run of `s`. -/
theorem trailingDigitRun_of_decomp (p d : List Char)
    (hd : d.all Char.isDigit = true)
    (hp : ∀ c ∈ p.getLast?, c.isDigit = false) :
    trailingDigitRun (p ++ d) = d ∧ trailingDigitStem (p ++ d) = p := by
  have hrev : (p ++ d).reverse = d.reverse ++ p.reverse := by
    simp
  have htake : (d.reverse ++ p.reverse).takeWhile Char.isDigit = d.reverse := by
    rw [List.takeWhile_append_of_pos (by intro a ha; simp at ha; exact (List.all_eq_true.mp hd) a ha)]
    rw [takeWhile_eq_nil_of_head Char.isDigit p.reverse (by simpa using hp)]
    simp
  have hdrop : (d.reverse ++ p.reverse).dropWhile Char.isDigit = p.reverse := by
    rw [List.dropWhile_append_of_pos (by intro a ha; simp at ha; exact (List.all_eq_true.mp hd) a ha)]
    exact dropWhile_eq_self_of_head Char.isDigit p.reverse (by simpa using hp)
  constructor
  · unfold trailingDigitRun
    rw [hrev, htake, List.reverse_reverse]
  · unfold trailingDigitStem
    rw [hrev, hdrop, List.reverse_reverse]

/-- The split computed by the lazy regex agrees with the spec-side
description: second component the maximal trailing digit run, first
component everything before it. -/
theorem trailingDigitRun_split (s : List Char) :
    trailingDigitRun s = (splitAtTrailingDigits s).2 ∧
      trailingDigitStem s = (splitAtTrailingDigits s).1 := by
  have h := trailingDigitRun_of_decomp (splitAtTrailingDigits s).1 (splitAtTrailingDigits s).2
    (splitAtTrailingDigits_all_digits s) (splitAtTrailingDigits_getLast s)
  rw [splitAtTrailingDigits_append s] at h
  exact h

theorem splitAtTrailingDigits_of_all_digits (s : List Char)
    (h : s.all Char.isDigit = true) : (splitAtTrailingDigits s).1 = [] := by
  cases s with
  | nil => rfl
  | cons c t => simp [splitAtTrailingDigits, h]

/-- A string without a newline is its own suffix after the last newline. -/
theorem afterLastNewline_of_not_mem (s : List Char) (h : '\n' ∉ s) :
    afterLastNewline s = s := by
  unfold afterLastNewline
  have htw : s.reverse.takeWhile (fun c => c != '\n') = s.reverse := by
    rw [List.takeWhile_eq_self_iff]
    intro x hx
    simp only [bne_iff_ne, ne_eq]
    intro hx'
    subst hx'
    exact h (List.mem_reverse.mp hx)
  rw [htw, List.reverse_reverse]

/-! ## Claim theorems -/

/-- **C7 counterexample**: the claim fails as stated — because `.` in the
Rust regex does not match a newline and `$` anchors at the end of the
haystack, the leftmost match of `(.*?)(\\d*)$` against a fragment containing
a newline starts after the last newline, so the normalizer silently drops
everything up to and including it: the result for a fragment with a newline
between two letters is not any `prefix ++ infix ++ suffix` decomposition of
that fragment. -/
theorem middle_name_drops_text_before_last_newline :
    filled_with_middle_name "a\nb".data "-sophon".data = "b-sophon".data ∧
    filled_with_middle_name "a\nb".data "-sophon".data ≠
      trailingDigitStem "a\nb".data ++ "-sophon".data ++ trailingDigitRun "a\nb".data := by
  decide

/-- **C7** (corrected): for every fragment the normalizer first truncates to
the part after the last newline and splits that part at its maximal trailing
digit run; in particular, for every ASCII fragment containing no newline —
the domain on which the `Char.isDigit` model of the Unicode `Nd` class `\\d`
is exact — it splits the fragment itself into a prefix and the maximal
trailing run of decimal digits (possibly empty) and returns
`prefix ++ infix ++ suffix`; an all-digit fragment yields an empty prefix; a
fragment with no trailing digit run gets the infix appended at the end; with
no infix configured the fragment is returned unchanged.  The ASCII
hypotheses scope the statements to where the model is faithful; the
model-level identities hold for all fragments. -/
theorem middle_name_splits_at_maximal_trailing_digit_run :
    (∀ s m : List Char, filled_with_middle_name s m =
        trailingDigitStem (afterLastNewline s) ++ m ++
          trailingDigitRun (afterLastNewline s)) ∧
    (∀ s m : List Char, isAscii s = true → '\n' ∉ s →
        filled_with_middle_name s m = trailingDigitStem s ++ m ++ trailingDigitRun s) ∧
    (∀ s : List Char, s.all Char.isDigit = true → trailingDigitStem s = []) ∧
    (∀ s m : List Char, isAscii s = true → '\n' ∉ s → trailingDigitRun s = [] →
        filled_with_middle_name s m = s ++ m) ∧
    (∀ s : List Char, normalizeFragment none s = s) := by
  have hgen : ∀ s m : List Char, filled_with_middle_name s m =
      trailingDigitStem (afterLastNewline s) ++ m ++
        trailingDigitRun (afterLastNewline s) := by
    intro s m
    unfold filled_with_middle_name
    rw [(trailingDigitRun_split (afterLastNewline s)).1,
      (trailingDigitRun_split (afterLastNewline s)).2]
  have hplain : ∀ s m : List Char, '\n' ∉ s →
      filled_with_middle_name s m = trailingDigitStem s ++ m ++ trailingDigitRun s := by
    intro s m hnl
    rw [hgen s m, afterLastNewline_of_not_mem s hnl]
  refine ⟨hgen, fun s m _ha hnl => hplain s m hnl, ?_, ?_, fun _ => rfl⟩
  · intro s h
    rw [(trailingDigitRun_split s).2]
    exact splitAtTrailingDigits_of_all_digits s h
  · intro s m _ha hnl h
    rw [hplain s m hnl, h]
    have h2 := (trailingDigitRun_split s).1
    rw [h] at h2
    have hs := splitAtTrailingDigits_append s
    rw [← h2] at hs
    simp only [List.append_nil] at hs
    rw [(trailingDigitRun_split s).2, hs]
    simp

/-- **C7 witness**: the corrected theorem applied at the fixture inputs of
the Rust unit test — all ASCII and newline-free — discharging the
hypotheses of its conditional conjuncts. -/
theorem middle_name_splits_at_maximal_trailing_digit_run_witness :
    filled_with_middle_name "s2s22".data "-test".data =
        trailingDigitStem "s2s22".data ++ "-test".data ++ trailingDigitRun "s2s22".data ∧
    trailingDigitStem "2222".data = [] ∧
    filled_with_middle_name "notebook".data "-sophon".data = "notebook".data ++ "-sophon".data := by
  refine ⟨middle_name_splits_at_maximal_trailing_digit_run.2.1 "s2s22".data "-test".data
      (by decide) (by decide),
    middle_name_splits_at_maximal_trailing_digit_run.2.2.1 "2222".data (by decide),
    middle_name_splits_at_maximal_trailing_digit_run.2.2.2.1 "notebook".data "-sophon".data
      (by decide) (by decide) (by decide)⟩

/-- **C6 counterexample**: the claim fails as stated in two ways — when the
infix itself ends in a decimal digit, the trailing digit run of the
normalized result absorbs it (`normalize("kg2", "2") = "kg22"` has trailing
run `"22"` while `"kg2"` has `"2"`); and for a fragment containing a
newline, the part before the last newline is dropped by the regex match, so
even the length identity fails. -/
theorem middle_name_length_or_run_not_preserved :
    trailingDigitRun (filled_with_middle_name "kg2".data "2".data) ≠
      trailingDigitRun "kg2".data ∧
    (filled_with_middle_name "a\nb".data "-s".data).length ≠
      "a\nb".data.length + "-s".data.length := by
  decide

/-- **C6** (corrected): for every ASCII fragment `F` containing no newline
and every infix `M`, `len(normalize(F, M)) = len(F) + len(M)`; and whenever
`M` is also ASCII and does not end in a decimal digit (in particular
whenever `M` is empty), the maximal trailing decimal-digit run of the result
equals that of `F`.  The ASCII hypotheses scope the statement to where the
`Char.isDigit` model of the Unicode `Nd` class `\\d` is exact. -/
theorem middle_name_length_and_trailing_run :
    ∀ s m : List Char, isAscii s = true → '\n' ∉ s →
      (filled_with_middle_name s m).length = s.length + m.length ∧
      (isAscii m = true → (∀ c ∈ m.getLast?, c.isDigit = false) →
        trailingDigitRun (filled_with_middle_name s m) = trailingDigitRun s) := by
  intro s m _ha hnl
  have hfill : filled_with_middle_name s m =
      (splitAtTrailingDigits s).1 ++ m ++ (splitAtTrailingDigits s).2 := by
    unfold filled_with_middle_name
    rw [afterLastNewline_of_not_mem s hnl]
  constructor
  · rw [hfill]
    have hs := congrArg List.length (splitAtTrailingDigits_append s)
    simp only [List.length_append] at hs ⊢
    omega
  · intro _hm hm
    rw [hfill]
    have hlast : ∀ c ∈ ((splitAtTrailingDigits s).1 ++ m).getLast?, c.isDigit = false := by
      intro c hc
      rw [List.getLast?_append] at hc
      cases hm' : m.getLast? with
      | none => exact splitAtTrailingDigits_getLast s c (by rw [hm'] at hc; simpa using hc)
      | some y =>
        rw [hm'] at hc
        simp only [Option.or_some, Option.mem_def, Option.some.injEq] at hc
        rw [← hc]
        exact hm y (by rw [hm']; rfl)
    have h := trailingDigitRun_of_decomp ((splitAtTrailingDigits s).1 ++ m)
      (splitAtTrailingDigits s).2 (splitAtTrailingDigits_all_digits s) hlast
    rw [h.1, (trailingDigitRun_split s).1]

/-- **C6 witness**: the corrected theorem applied at the Rust unit-test
input `("kg2", "-sophon")` — ASCII, newline-free, infix not ending in a
digit. -/
theorem middle_name_length_and_trailing_run_witness :
    (filled_with_middle_name "kg2".data "-sophon".data).length =
        "kg2".data.length + "-sophon".data.length ∧
    trailingDigitRun (filled_with_middle_name "kg2".data "-sophon".data) =
      trailingDigitRun "kg2".data :=
  ⟨(middle_name_length_and_trailing_run "kg2".data "-sophon".data
      (by decide) (by decide)).1,
   (middle_name_length_and_trailing_run "kg2".data "-sophon".data
      (by decide) (by decide)).2 (by decide) (by decide)⟩

/-- **C9** (confirmed): the effective candidate window size derived from
`RKL_CANDIDATE_SIZE` follows the resolution rule of the spec — default 5 when the
variable is absent, unparsable, or parses below 1, otherwise clamped to at
most 25 — including the four example behaviours given in the spec. -/
theorem candidate_size_matches_spec :
    (∀ env : Option (List Char), get_candidate_size env = candidate_size_spec env) ∧
    get_candidate_size none = 5 ∧
    get_candidate_size (some "100".data) = 25 ∧
    get_candidate_size (some "-1".data) = 5 ∧
    get_candidate_size (some "abcd".data) = 5 := by
  refine ⟨?_, by decide, by decide, by decide, by decide⟩
  intro env
  cases env with
  | none => rfl
  | some s =>
    cases hp : parse_usize s <;>
      simp [get_candidate_size, candidate_size_spec, hp, MAX_CANDIDATE_SIZE,
        DEFAULT_CANDIDATE_SIZE]

/-- **C10** (confirmed): for every window size the label string is a prefix
of `"abcdefghijklmnopqrstuvwxy"` (the first 25 lowercase letters) and never
contains `'z'`, so the reserved apply-to-all option cannot collide with an
individual candidate label; this holds for all sizes, in particular every
size the program can compute. -/
theorem candidate_labels_never_contain_z :
    ∀ candidate_size : Nat,
      get_candidate_option candidate_size <+: "abcdefghijklmnopqrstuvwxy".data ∧
      'z' ∉ get_candidate_option candidate_size := by
  intro n
  have halpha : ((List.range 26).map fun i => Char.ofNat ('a'.toNat + i)).take 25 =
      "abcdefghijklmnopqrstuvwxy".data := by decide
  have h : get_candidate_option n =
      "abcdefghijklmnopqrstuvwxy".data.take (min MAX_CANDIDATE_SIZE n) := by
    rw [← halpha, List.take_take]
    have hmin : min (min MAX_CANDIDATE_SIZE n) 25 = min MAX_CANDIDATE_SIZE n := by
      simp only [MAX_CANDIDATE_SIZE]
      omega
    rw [hmin]
    rfl
  constructor
  · rw [h]
    exact List.take_prefix _ _
  · rw [h]
    intro hz
    have hzmem : 'z' ∈ "abcdefghijklmnopqrstuvwxy".data :=
      List.IsPrefix.subset (List.take_prefix _ _) hz
    revert hzmem
    decide

/-- **C4** (confirmed): a disambiguation input line (already trimmed and
lowercased) is accepted — i.e. does not hit the invalid-input
`process::exit(1)` — exactly when it is a single character that is either
one of the assigned labels or `'z'`.  The Rust `&&`/`||` precedence gives
precisely this strict grouping. -/
theorem disambiguation_input_validity (command : Command) (candidate_pods : List PodInfo)
    (candidate_size : Nat) (input_choice : List Char) :
    handle_multiple_results command candidate_pods candidate_size input_choice ≠
        PromptOutcome.invalidExit ↔
      ∃ c : Char, input_choice = [c] ∧
        (c ∈ get_candidate_option candidate_size ∨ c = 'z') := by
  constructor
  · intro hne
    rcases input_choice with _ | ⟨c, _ | ⟨c2, rest2⟩⟩
    · exact absurd (by simp [handle_multiple_results]) hne
    · refine ⟨c, rfl, ?_⟩
      by_cases hz : c = 'z'
      · exact Or.inr hz
      · by_cases hmem : c ∈ get_candidate_option candidate_size
        · exact Or.inl hmem
        · exfalso
          apply hne
          unfold handle_multiple_results
          rw [if_pos]
          right
          constructor
          · simp only [Bool.not_eq_true]
            rw [Bool.eq_false_iff]
            intro hcontains
            exact hmem ((strContains_singleton _ c).mp hcontains)
          · simp [hz]
    · exact absurd (by simp [handle_multiple_results]) hne
  · rintro ⟨c, rfl, hvc⟩
    unfold handle_multiple_results
    rw [if_neg]
    · by_cases hz : c = 'z'
      · subst hz
        simp only [if_pos rfl]
        cases hmapM : (List.range candidate_size).mapM
            (fun candidate_idx => (candidate_pods.get? candidate_idx).map
              fun p => Rkubctl.get_kub_command command p.name) <;> simp [hmapM]
      · simp only [if_neg hz]
        cases hidx : (get_candidate_option candidate_size).findIdx? (fun x => x = c) with
        | none => simp [hidx]
        | some choice_index =>
          cases hget : candidate_pods[choice_index]? <;>
            simp [hidx, List.get?_eq_getElem?, hget]
    · intro hcond
      rcases hcond with hlen | ⟨hcontains, hnez⟩
      · exact hlen (by simp)
      · rcases hvc with hmem | hz
        · exact hcontains (by simpa using (strContains_singleton _ c).mpr hmem)
        · exact hnez (by rw [hz])

/-- **C4 witness**: a concrete accepted input — label `'a'` over two
candidates with the default window size — obtained by applying the validity
theorem. -/
theorem disambiguation_input_validity_witness :
    handle_multiple_results (Command.DELETE "n".data)
        [mkPod "n1".data, mkPod "n2".data] 5 ['a'] ≠ PromptOutcome.invalidExit :=
  (disambiguation_input_validity (Command.DELETE "n".data)
    [mkPod "n1".data, mkPod "n2".data] 5 ['a']).mpr ⟨'a', rfl, Or.inl (by decide)⟩

/-- **C1** (code bug): on `'z'` over five candidates with window size 5 the
prompt does return exactly five commands in label order, but on `'z'` over
two candidates with window size 5 (two menu lines displayed) the Rust loop
`for i in 0..candidate_size` indexes `candidate_pods[2]` out of bounds and
panics instead of returning the two displayed candidates' names. -/
theorem apply_all_panics_when_fewer_candidates_than_window :
    promptCmdCount (handle_multiple_results (Command.DELETE "sophon".data)
        [mkPod "p1".data, mkPod "p2".data, mkPod "p3".data, mkPod "p4".data,
         mkPod "p5".data] 5 ['z']) = some 5 ∧
    handle_multiple_results (Command.DELETE "sophon".data)
        [mkPod "p1".data, mkPod "p2".data] 5 ['z'] = PromptOutcome.panicked := by
  decide

/-- **C2** (code bug): with two candidates and window size 5, five letter
labels are assigned (`min(25, windowSize)`, not
`min(25, windowSize, len(candidates))` — only the zipped menu lines are
capped by the candidate count), and the out-of-range label `'c'` is accepted
by the validity check and then panics on `candidate_pods[2]` instead of
being rejected. -/
theorem out_of_range_label_accepted_then_panics :
    (get_candidate_option 5).length = 5 ∧
    (displayedCandidates [mkPod "n1".data, mkPod "n2".data] 5).length = 2 ∧
    (get_candidate_option 5).length ≠
      min 25 (min 5 [mkPod "n1".data, mkPod "n2".data].length) ∧
    handle_multiple_results (Command.DELETE "n".data)
        [mkPod "n1".data, mkPod "n2".data] 5 ['c'] = PromptOutcome.panicked := by
  decide

/-- **C3 counterexample**: six pods, zero exact matches, default window size
5 (environment unset): the fuzzy fallback returns all six pods — its only
cap is `MAX_CANDIDATE_SIZE` (25), not the candidate window size — so the
claimed bound `min(windowSize, 25, pod count)` fails. -/
theorem fuzzy_fallback_exceeds_window_size :
    get_candidate_pod [mkPod "a1".data, mkPod "a2".data, mkPod "a3".data,
        mkPod "a4".data, mkPod "a5".data, mkPod "a6".data] "zzz".data false = [] ∧
    ¬ ((get_candidate_pod [mkPod "a1".data, mkPod "a2".data, mkPod "a3".data,
          mkPod "a4".data, mkPod "a5".data, mkPod "a6".data] "zzz".data true).length ≤
        min (get_candidate_size none) (min MAX_CANDIDATE_SIZE
          [mkPod "a1".data, mkPod "a2".data, mkPod "a3".data,
           mkPod "a4".data, mkPod "a5".data, mkPod "a6".data].length)) := by
  decide

/-- **C3** (corrected): given zero exact-substring matches, the fuzzy
fallback returns exactly `min(25, pod count)` pods (the window size does not
bound this pass), sorted by non-decreasing Jaccard distance to the fragment;
stability is witnessed by the index-annotated sort being a permutation of
the annotated input that is pairwise ordered by the lexicographic
(distance, original index) relation. -/
theorem fuzzy_fallback_sorted_stable (all_pods : List PodInfo) (fragment : List Char)
    (h : get_candidate_pod all_pods fragment false = []) :
    (get_candidate_pod all_pods fragment true).length =
        min MAX_CANDIDATE_SIZE all_pods.length ∧
    List.Pairwise (fun a b : PodInfo =>
        jaccardDist a.name fragment ≤ jaccardDist b.name fragment)
      (get_candidate_pod all_pods fragment true) ∧
    (all_pods.enum.insertionSort (fuzzyRel fragment)).Perm all_pods.enum ∧
    List.Pairwise (fuzzyRel fragment)
      (all_pods.enum.insertionSort (fuzzyRel fragment)) := by
  have hsorted : List.Pairwise (fuzzyRel fragment)
      (all_pods.enum.insertionSort (fuzzyRel fragment)) :=
    List.sorted_insertionSort (fuzzyRel fragment) all_pods.enum
  have hdef : get_candidate_pod all_pods fragment true =
      ((all_pods.enum.insertionSort (fuzzyRel fragment)).map Prod.snd).take
        MAX_CANDIDATE_SIZE := rfl
  refine ⟨?_, ?_, List.perm_insertionSort _ _, hsorted⟩
  · rw [hdef, List.length_take, List.length_map,
      (List.perm_insertionSort (fuzzyRel fragment) all_pods.enum).length_eq,
      List.enum_length]
  · rw [hdef]
    have hmap : List.Pairwise (fun a b : PodInfo =>
        jaccardDist a.name fragment ≤ jaccardDist b.name fragment)
        ((all_pods.enum.insertionSort (fuzzyRel fragment)).map Prod.snd) := by
      refine hsorted.map Prod.snd ?_
      intro a b hab
      rcases hab with hlt | ⟨heq, _⟩
      · exact le_of_lt hlt
      · exact le_of_eq heq
    exact hmap.sublist (List.take_sublist _ _)

/-- **C3 witness**: the corrected theorem applied to two pods and a fragment
with no substring match. -/
theorem fuzzy_fallback_sorted_stable_witness :
    (get_candidate_pod [mkPod "aaa".data, mkPod "bbb".data] "zzz".data true).length =
      min MAX_CANDIDATE_SIZE [mkPod "aaa".data, mkPod "bbb".data].length :=
  (fuzzy_fallback_sorted_stable [mkPod "aaa".data, mkPod "bbb".data] "zzz".data
    (by decide)).1

/-- **C5 counterexample**: a run whose exact pass is empty calls the Pod
Lister twice, and the fuzzy pass really consults the second snapshot: a
lister whose second snapshot is empty ends in a clean no-match exit, while a
lister constantly returning the same pod proceeds to disambiguation — so
both passes do not operate on one shared snapshot. -/
theorem fuzzy_fallback_requeries_lister :
    (Manager.get_kub_command (fun n => if n = 0 then [mkPod "aaa".data] else [])
        none 5 ['a'] (Command.DELETE "zzz".data)).2 = 2 ∧
    (Manager.get_kub_command (fun n => if n = 0 then [mkPod "aaa".data] else [])
        none 5 ['a'] (Command.DELETE "zzz".data)).1 ≠
      (Manager.get_kub_command (fun _ => [mkPod "aaa".data])
        none 5 ['a'] (Command.DELETE "zzz".data)).1 := by
  decide

/-- **C5** (corrected): each run queries the Pod Lister exactly once when
the exact pass finds a candidate, and exactly twice — once per pass, on two
separate snapshots — when the exact pass is empty and the fuzzy fallback
runs; so the bound is two queries per run, not one. -/
theorem run_queries_lister_once_or_twice :
    ∀ (lister : Nat → List PodInfo) (middle : Option (List Char))
      (candidate_size : Nat) (input : List Char) (command : Command),
      (Manager.get_kub_command lister middle candidate_size input command).2 =
        if (get_candidate_pod (lister 0)
              (normalizeFragment middle (get_pod_name command)) false).length = 0
        then 2 else 1 := by
  intro lister middle candidate_size input command
  unfold Manager.get_kub_command
  by_cases h : (get_candidate_pod (lister 0)
      (normalizeFragment middle (get_pod_name command)) false).length = 0
  · simp only [if_pos h]
    split <;> rfl
  · simp only [if_neg h]
    split <;> rfl

/-- **C8** (confirmed): whenever at least one pod name contains the
(normalized) fragment as a case-sensitive substring, the exact pass returns
exactly the pods whose names contain it, in Lister order (a sublist of
the listing), and the run performs a single listing query — the fuzzy pass,
which always issues a second query, never runs. -/
theorem exact_match_priority (lister : Nat → List PodInfo) (middle : Option (List Char))
    (candidate_size : Nat) (input : List Char) (command : Command)
    (h : (lister 0).filter (fun p => strContains p.name
          (normalizeFragment middle (get_pod_name command))) ≠ []) :
    get_candidate_pod (lister 0) (normalizeFragment middle (get_pod_name command)) false =
      (lister 0).filter (fun p => strContains p.name
        (normalizeFragment middle (get_pod_name command))) ∧
    (∀ p : PodInfo,
        p ∈ get_candidate_pod (lister 0)
            (normalizeFragment middle (get_pod_name command)) false ↔
          p ∈ lister 0 ∧
            normalizeFragment middle (get_pod_name command) <:+: p.name) ∧
    (get_candidate_pod (lister 0)
        (normalizeFragment middle (get_pod_name command)) false).Sublist (lister 0) ∧
    (Manager.get_kub_command lister middle candidate_size input command).2 = 1 := by
  have hdef : get_candidate_pod (lister 0)
      (normalizeFragment middle (get_pod_name command)) false =
      (lister 0).filter (fun p => strContains p.name
        (normalizeFragment middle (get_pod_name command))) := rfl
  refine ⟨hdef, ?_, ?_, ?_⟩
  · intro p
    rw [hdef, List.mem_filter, strContains_iff]
  · rw [hdef]
    exact List.filter_sublist _
  · unfold Manager.get_kub_command
    rw [if_neg (by rw [List.length_eq_zero, hdef]; exact h)]
    split <;> rfl

/-- **C8 witness**: the fixture pod `sophon-notebook` matched by the
fragment `notebook` — the theorem yields a single listing query. -/
theorem exact_match_priority_witness :
    (Manager.get_kub_command (fun _ => [mkPod "sophon-notebook".data]) none 5 []
        (Command.DELETE "notebook".data)).2 = 1 :=
  (exact_match_priority (fun _ => [mkPod "sophon-notebook".data]) none 5 []
    (Command.DELETE "notebook".data) (by decide)).2.2.2

end Rkubctl
